import Mathlib

/-!
Verification of the MDL estimators of `scedar/eda/mdl.py`.

The Python module computes minimum-description-length scores for a
1-D numeric sample with three encoders:

* `MultinomialMdl`  — empirical categorical code over the exact values;
* `GKdeMdl`         — Gaussian-KDE code with a quantized multinomial fallback;
* `ZeroIGKdeMdl`    — zero-indicator Bernoulli/ternary code plus a KDE code
                      on the non-zero subset.

Shallow embedding choices:

* a sample is a `List ℚ` (exact rationals model the float values: all
  branching in the source is on equality/order of values, which ℚ models
  exactly); costs are real numbers built with `Real.log`;
* `np.unique(x, return_counts=True)` is modelled by the sorted
  deduplicated list `uniqVals x` together with `x.count v`;
* the scipy `gaussian_kde` fit is the external capability of the design:
  it is a parameter `fit : List ℚ → Option (List ℝ × ℝ)` returning, on
  success, the log-densities at the training points and the bandwidth
  factor, and `none` on estimation failure (the source's `except` path).
-/

namespace Scedar

/-- Sorted list of the distinct values of `x`
(`np.unique(x)`: unique values in increasing order). -/
def uniqVals (x : List ℚ) : List ℚ :=
  List.insertionSort (· ≤ ·) x.dedup

/-- Empirical probability of value `v` in sample `x`
(`uniq_val_cnts / self._n`; `0/0 = 0` mirrors the "make division by 0
valid" note in the source, the quotient is never used when `x = []`). -/
def uniqP (x : List ℚ) (v : ℚ) : ℚ :=
  (x.count v : ℚ) / (x.length : ℚ)

/-- Self-cost of `MultinomialMdl.__init__`:
more than one distinct value → `Σ -log(p_i)·c_i`;
exactly one distinct value → `log n`; empty sample → `0`. -/
noncomputable def multinomialMdl (x : List ℚ) : ℝ :=
  if 1 < (uniqVals x).length then
    ((uniqVals x).map (fun v => -Real.log (uniqP x v) * (x.count v : ℝ))).sum
  else if (uniqVals x).length = 1 then
    Real.log (x.length : ℝ)
  else
    0

/-- `np.max(np.abs(qx) * 2)` over a (non-empty) query list. -/
def maxAbs2 (qx : List ℚ) : ℚ :=
  (qx.map (fun a => |a| * 2)).foldr max 0

/-- Probability chosen for a query value `v` absent from the fitted
sample, when `use_adjescent_when_absent` is set: the source runs
`np.searchsorted(self._uniq_vals, uval)` (for `v` not in the sorted
array this is the number of fitted distinct values `< v`) and picks
`ps[0]`, `ps[-1]`, or the nearer of `ps[uind-1]`/`ps[uind]`, taking the
larger probability on a distance tie. -/
def adjacentP (x : List ℚ) (v : ℚ) : ℚ :=
  let u := uniqVals x
  let uind := u.countP (fun a => decide (a < v))
  if uind = 0 then
    uniqP x (u.getD 0 0)
  else if u.length ≤ uind then
    uniqP x (u.getD (u.length - 1) 0)
  else
    let lval := u.getD (uind - 1) 0
    let rval := u.getD uind 0
    if |lval - v| < |rval - v| then uniqP x lval
    else if |rval - v| < |lval - v| then uniqP x rval
    else max (uniqP x lval) (uniqP x rval)

/-- `MultinomialMdl.encode(qx, use_adjescent_when_absent)`:
empty query → `0`; unfitted model (`n = 0`) → `size · log(max|q|·2)`;
otherwise a sum over the distinct query values of the per-value cost
times its multiplicity. -/
noncomputable def encode (x : List ℚ) (qx : List ℚ) (useAdj : Bool) : ℝ :=
  if qx.length = 0 then 0
  else
    let unif : ℝ := Real.log (maxAbs2 qx : ℝ)
    if x.length = 0 then (qx.length : ℝ) * unif
    else
      ((uniqVals qx).map (fun uval =>
        (if uval ∈ x then -Real.log (uniqP x uval : ℝ)
         else if useAdj then -Real.log (adjacentP x uval : ℝ)
         else unif) * (qx.count uval : ℝ))).sum

/-- Truncation toward zero, as numpy's `.astype(int)` on floats. -/
def truncInt (q : ℚ) : ℤ :=
  if 0 ≤ q then ⌊q⌋ else ⌈q⌉

/-- The fallback quantization `(self._x * 100).astype(int)`. -/
def quantize (x : List ℚ) : List ℚ :=
  x.map (fun a => ((truncInt (a * 100) : ℤ) : ℚ))

/-- External kernel-density capability (§4.3 of the design): given the
sample it either fails or returns the log-densities at the training
points together with the bandwidth scaling factor. -/
def KdeFit : Type :=
  List ℚ → Option (List ℝ × ℝ)

/-- Fitted state of `GKdeMdl`: the mdl plus the `_kde`, `_bw_factor`
and `_logdens` attributes (`none` = Python `None`). -/
structure GKdeState where
  mdl : ℝ
  kde : Option (List ℝ × ℝ)
  bwFactor : Option ℝ
  logdens : Option (List ℝ)

/-- `GKdeMdl._kde_mdl`: empty sample → cost `0`, no kde; fit success →
`-Σ logdens + log 2`; fit failure → multinomial cost of the quantized
sample, no kde. -/
noncomputable def gkdeFit (fit : KdeFit) (x : List ℚ) : GKdeState :=
  if x.length = 0 then
    { mdl := 0, kde := none, bwFactor := none, logdens := none }
  else
    match fit x with
    | some (logdens, factor) =>
        { mdl := -logdens.sum + Real.log 2
          kde := some (logdens, factor)
          bwFactor := some factor
          logdens := some logdens }
    | none =>
        { mdl := multinomialMdl (quantize x)
          kde := none, bwFactor := none, logdens := none }

/-- Sample mean of the stored values, as a real. -/
noncomputable def listMean (x : List ℚ) : ℝ :=
  ((x.sum : ℚ) : ℝ) / (x.length : ℝ)

/-- `x.std(ddof=1)`: square root of `Σ (x_i - mean)² / (n - 1)`. -/
noncomputable def stdDdof1 (x : List ℚ) : ℝ :=
  Real.sqrt ((x.map (fun a => ((a : ℝ) - listMean x) ^ 2)).sum
    / ((x.length : ℝ) - 1))

/-- `GKdeMdl.bandwidth`: `None` without a fitted kde, otherwise
`factor * x.std(ddof=1)`. -/
noncomputable def gkdeBandwidth (fit : KdeFit) (x : List ℚ) : Option ℝ :=
  match (gkdeFit fit x).bwFactor with
  | none => none
  | some factor => some (factor * stdDdof1 x)

/-- `x[np.nonzero(x)]`: the non-zero entries in order. -/
def nonzeroVals (x : List ℚ) : List ℚ :=
  x.filter (fun a => a ≠ 0)

/-- `ZeroIGKdeMdl._compute_zero_indicator_mdl` with `n` the sample size
and `k` the number of non-zero entries. -/
noncomputable def ziMdl (x : List ℚ) : ℝ :=
  let n := x.length
  let k := (nonzeroVals x).length
  if n = 0 then 0
  else if k = n ∨ k = 0 then Real.log 3
  else
    Real.log 3 - (k : ℝ) * Real.log ((k : ℝ) / (n : ℝ))
      - ((n : ℝ) - (k : ℝ)) * Real.log (1 - (k : ℝ) / (n : ℝ))

/-- `ZeroIGKdeMdl.mdl = self._zi_mdl + self._kde_mdl` where the inner
`GKdeMdl` is fitted on the non-zero subset with the same bandwidth
rule. -/
noncomputable def zigkMdl (fit : KdeFit) (x : List ℚ) : ℝ :=
  ziMdl x + (gkdeFit fit (nonzeroVals x)).mdl

/-- `ZeroIGKdeMdl.bandwidth` delegates to the inner `GKdeMdl`. -/
noncomputable def zigkBandwidth (fit : KdeFit) (x : List ℚ) : Option ℝ :=
  gkdeBandwidth fit (nonzeroVals x)

/-- `ZeroIGKdeMdl.kde` delegates to the inner `GKdeMdl`. -/
noncomputable def zigkKde (fit : KdeFit) (x : List ℚ) : Option (List ℝ × ℝ) :=
  (gkdeFit fit (nonzeroVals x)).kde

/-! ### Basic facts about `uniqVals` -/

theorem uniqVals_perm (x : List ℚ) : List.Perm (uniqVals x) x.dedup :=
  List.perm_insertionSort _ _

theorem mem_uniqVals {x : List ℚ} {v : ℚ} : v ∈ uniqVals x ↔ v ∈ x := by
  rw [(uniqVals_perm x).mem_iff, List.mem_dedup]

theorem nodup_uniqVals (x : List ℚ) : (uniqVals x).Nodup :=
  ((uniqVals_perm x).nodup_iff).mpr (List.nodup_dedup x)

theorem sorted_uniqVals (x : List ℚ) : List.Sorted (· < ·) (uniqVals x) :=
  (List.sorted_insertionSort _ _).lt_of_le (nodup_uniqVals x)

theorem length_uniqVals (x : List ℚ) : (uniqVals x).length = x.dedup.length :=
  (uniqVals_perm x).length_eq

/-- A sum over the sorted distinct values is a `Finset` sum over the
values occurring in the sample. -/
theorem sum_map_uniqVals {M : Type} [AddCommMonoid M] (x : List ℚ) (f : ℚ → M) :
    ((uniqVals x).map f).sum = ∑ v ∈ x.toFinset, f v := by
  rw [((uniqVals_perm x).map f).sum_eq, ← List.sum_toFinset f (List.nodup_dedup x)]
  congr 1
  ext a
  simp

/-- The per-value counts over the distinct values sum to the sample size. -/
theorem sum_count_uniqVals (x : List ℚ) :
    ((uniqVals x).map (fun v => x.count v)).sum = x.length := by
  rw [((uniqVals_perm x).map _).sum_eq]
  exact List.sum_map_count_dedup_eq_length x

/-! ### C1: the multinomial self-cost -/

/-- C1: `MultinomialMdl`'s self-cost is `0` on the empty sample,
`log n` when the sample has exactly one distinct value, and
`Σ_v -log(count v / n) · count v` over the occurring values when it has
more than one; on `[1,1,2,2,2]` it is `-(2·log 0.4 + 3·log 0.6)`. -/
theorem multinomial_mdl_spec (x : List ℚ) :
    (x.length = 0 → multinomialMdl x = 0) ∧
    (x.dedup.length = 1 → multinomialMdl x = Real.log (x.length : ℝ)) ∧
    (1 < x.dedup.length →
      multinomialMdl x =
        ∑ v ∈ x.toFinset,
          -Real.log ((x.count v : ℝ) / (x.length : ℝ)) * (x.count v : ℝ)) ∧
    multinomialMdl [1, 1, 2, 2, 2] = -(2 * Real.log 0.4 + 3 * Real.log 0.6) := by
  refine ⟨?_, ?_, ?_, ?_⟩
  · intro h
    rw [List.length_eq_zero] at h
    subst h
    rfl
  · intro h
    rw [multinomialMdl, length_uniqVals, h]
    norm_num
  · intro h
    rw [multinomialMdl, length_uniqVals, if_pos h, sum_map_uniqVals]
    refine Finset.sum_congr rfl fun v _ => ?_
    rw [uniqP]
    push_cast
    ring
  · have hu : uniqVals [1, 1, 2, 2, 2] = [1, 2] := by decide
    rw [multinomialMdl, hu]
    have hc1 : ([1, 1, 2, 2, 2] : List ℚ).count 1 = 2 := by decide
    have hc2 : ([1, 1, 2, 2, 2] : List ℚ).count 2 = 3 := by decide
    have h1 : uniqP [1, 1, 2, 2, 2] 1 = 2 / 5 := by
      rw [uniqP, hc1]; norm_num
    have h2 : uniqP [1, 1, 2, 2, 2] 2 = 3 / 5 := by
      rw [uniqP, hc2]; norm_num
    simp only [List.map_cons, List.map_nil, List.sum_cons, List.sum_nil,
      h1, h2, hc1, hc2, List.length_cons, List.length_nil]
    norm_num
    ring

/-- Instances of `multinomial_mdl_spec` with its hypotheses discharged:
the empty, single-value and two-value samples. -/
theorem multinomial_mdl_spec_witness :
    multinomialMdl [] = 0 ∧
    multinomialMdl [5, 5, 5] = Real.log 3 ∧
    multinomialMdl [1, 2] = 2 * Real.log 2 := by
  refine ⟨(multinomial_mdl_spec []).1 rfl, ?_, ?_⟩
  · have h := (multinomial_mdl_spec [5, 5, 5]).2.1 (by decide)
    simpa using h
  · have h := (multinomial_mdl_spec [1, 2]).2.2.1 (by decide)
    rw [h]
    have ht : ([1, 2] : List ℚ).toFinset = {1, 2} := by decide
    rw [ht]
    have hc1 : ([1, 2] : List ℚ).count 1 = 1 := by decide
    have hc2 : ([1, 2] : List ℚ).count 2 = 1 := by decide
    rw [Finset.sum_insert (by decide), Finset.sum_singleton, hc1, hc2]
    norm_num
    rw [one_div, Real.log_inv]
    ring

/-! ### C8: fitted multinomial invariants -/

/-- C8: for a non-empty sample the fitted counts over the distinct
values sum to `n`, the fitted probabilities sum to `1` (exactly, over
ℚ), and every fitted probability is strictly positive. -/
theorem multinomial_fitted_invariants (x : List ℚ) (hx : x ≠ []) :
    ((uniqVals x).map (fun v => x.count v)).sum = x.length ∧
    ((uniqVals x).map (fun v => uniqP x v)).sum = 1 ∧
    ∀ v ∈ uniqVals x, 0 < uniqP x v := by
  have hn : 0 < x.length := List.length_pos.mpr hx
  refine ⟨sum_count_uniqVals x, ?_, ?_⟩
  · have hcast : ((uniqVals x).map (fun v => ((x.count v : ℚ)))).sum
        = (x.length : ℚ) := by
      rw [show (fun v => ((x.count v : ℕ) : ℚ))
            = (fun n : ℕ => (n : ℚ)) ∘ (fun v => x.count v) from rfl,
        ← List.map_map, ← Nat.cast_list_sum, sum_count_uniqVals x]
    have : ((uniqVals x).map (fun v => uniqP x v)).sum
        = ((uniqVals x).map (fun v => ((x.count v : ℚ)))).sum * (x.length : ℚ)⁻¹ := by
      rw [← List.sum_map_mul_right]
      simp only [uniqP, div_eq_mul_inv]
    rw [this, hcast, mul_inv_cancel₀ (by exact_mod_cast hn.ne')]
  · intro v hv
    have hc : 0 < x.count v := List.count_pos_iff.mpr (mem_uniqVals.mp hv)
    exact div_pos (by exact_mod_cast hc) (by exact_mod_cast hn)

/-- Instance of `multinomial_fitted_invariants` on `[1,1,2,2,2]`. -/
theorem multinomial_fitted_invariants_witness :
    (((uniqVals [1, 1, 2, 2, 2]).map
        (fun v => ([1, 1, 2, 2, 2] : List ℚ).count v)).sum = 5) ∧
    ((uniqVals [1, 1, 2, 2, 2]).map (fun v => uniqP [1, 1, 2, 2, 2] v)).sum = 1 := by
  have h := multinomial_fitted_invariants [1, 1, 2, 2, 2] (by decide)
  exact ⟨h.1, h.2.1⟩

/-! ### C2: the zero-indicator cost and the zero-inflated composite -/

/-- C2: `ZeroIGKdeMdl`'s zero-indicator cost follows the three-branch
formula in `n` and the non-zero count `k`; its total mdl is the
indicator cost plus the inner `GKdeMdl`'s cost on the non-zero subset;
bandwidth and kde delegate to the inner model.  On `[0,0,1,2,3]` the
indicator cost is `log 3 - 3·log 0.6 - 2·log 0.4`. -/
theorem zero_indicator_spec (fit : KdeFit) (x : List ℚ) :
    (x.length = 0 → ziMdl x = 0) ∧
    (x.length ≠ 0 →
      ((nonzeroVals x).length = x.length ∨ (nonzeroVals x).length = 0) →
      ziMdl x = Real.log 3) ∧
    (0 < (nonzeroVals x).length → (nonzeroVals x).length < x.length →
      ziMdl x = Real.log 3
        - ((nonzeroVals x).length : ℝ)
            * Real.log (((nonzeroVals x).length : ℝ) / (x.length : ℝ))
        - ((x.length : ℝ) - ((nonzeroVals x).length : ℝ))
            * Real.log (1 - ((nonzeroVals x).length : ℝ) / (x.length : ℝ))) ∧
    zigkMdl fit x = ziMdl x + (gkdeFit fit (nonzeroVals x)).mdl ∧
    zigkBandwidth fit x = gkdeBandwidth fit (nonzeroVals x) ∧
    zigkKde fit x = (gkdeFit fit (nonzeroVals x)).kde ∧
    ziMdl [0, 0, 1, 2, 3] = Real.log 3 - 3 * Real.log 0.6 - 2 * Real.log 0.4 := by
  refine ⟨?_, ?_, ?_, rfl, rfl, rfl, ?_⟩
  · intro h
    rw [ziMdl]
    simp [h]
  · intro hn hk
    rw [ziMdl]
    simp only [if_neg hn]
    rw [if_pos hk]
  · intro h1 h2
    rw [ziMdl]
    simp only [if_neg (by omega : ¬ x.length = 0)]
    rw [if_neg (by omega)]
  · have hz : nonzeroVals [0, 0, 1, 2, 3] = [1, 2, 3] := by decide
    rw [ziMdl, hz]
    norm_num

/-- Instances of `zero_indicator_spec` with the hypotheses of its three
indicator branches discharged at `[]`, `[0,0]` and `[0,0,1,2,3]`. -/
theorem zero_indicator_spec_witness :
    ziMdl [] = 0 ∧
    ziMdl [0, 0] = Real.log 3 ∧
    ziMdl [0, 0, 1, 2, 3] = Real.log 3
      - (3 : ℝ) * Real.log ((3 : ℝ) / 5) - ((5 : ℝ) - 3) * Real.log (1 - (3 : ℝ) / 5) := by
  refine ⟨(zero_indicator_spec (fun _ => none) []).1 rfl, ?_, ?_⟩
  · exact (zero_indicator_spec (fun _ => none) [0, 0]).2.1 (by decide) (by decide)
  · have h := (zero_indicator_spec (fun _ => none) [0, 0, 1, 2, 3]).2.2.1
      (by decide) (by decide)
    have hz : nonzeroVals [0, 0, 1, 2, 3] = [1, 2, 3] := by decide
    rw [hz] at h
    simpa using h

/-! ### C3: the kernel-density cost on success and on the empty sample -/

/-- C3: `GKdeMdl` on the empty sample has cost `0` and no bandwidth; on
a successful kde fit its cost is `-Σ logdens + log 2` and its bandwidth
is the kde factor times the `ddof=1` standard deviation. -/
theorem gkde_mdl_spec (fit : KdeFit) (x : List ℚ) :
    (x.length = 0 → (gkdeFit fit x).mdl = 0 ∧ gkdeBandwidth fit x = none) ∧
    (∀ logdens factor, x.length ≠ 0 → fit x = some (logdens, factor) →
      (gkdeFit fit x).mdl = -logdens.sum + Real.log 2 ∧
      gkdeBandwidth fit x = some (factor * stdDdof1 x) ∧
      stdDdof1 x = Real.sqrt ((x.map (fun a => ((a : ℝ) - listMean x) ^ 2)).sum
        / ((x.length : ℝ) - 1))) := by
  constructor
  · intro h
    rw [gkdeFit, gkdeBandwidth, gkdeFit]
    simp [h]
  · intro logdens factor hn hf
    rw [gkdeFit, gkdeBandwidth, gkdeFit]
    simp only [if_neg hn, hf]
    refine ⟨?_, ?_, ?_⟩ <;> trivial

/-- Instances of `gkde_mdl_spec`: the empty sample, and a concrete
provider succeeding on `[1,2]` with log-densities `[0,0]` and factor
`1`. -/
theorem gkde_mdl_spec_witness :
    (gkdeFit (fun _ => some ([0, 0], 1)) []).mdl = 0 ∧
    gkdeBandwidth (fun _ => some ([0, 0], 1)) [] = none ∧
    (gkdeFit (fun _ => some ([0, 0], 1)) [1, 2]).mdl = -(0 + (0 + 0)) + Real.log 2 ∧
    gkdeBandwidth (fun _ => some ([0, 0], 1)) [1, 2] = some (1 * stdDdof1 [1, 2]) := by
  have h0 := (gkde_mdl_spec (fun _ => some ([0, 0], 1)) []).1 rfl
  have h1 := (gkde_mdl_spec (fun _ => some ([0, 0], 1)) [1, 2]).2 [0, 0] 1
    (by decide) rfl
  exact ⟨h0.1, h0.2, by rw [h1.1]; norm_num, h1.2.1⟩

/-! ### C4: the degenerate-fit fallback -/

/-- C4: when the kde fit fails on a non-empty sample, `GKdeMdl`'s cost
is the multinomial cost of the sample scaled by `100` and truncated to
integers, and both the bandwidth and the kde are reported unavailable. -/
theorem gkde_fallback_spec (fit : KdeFit) (x : List ℚ)
    (hn : x.length ≠ 0) (hf : fit x = none) :
    (gkdeFit fit x).mdl = multinomialMdl (quantize x) ∧
    gkdeBandwidth fit x = none ∧
    (gkdeFit fit x).kde = none := by
  rw [gkdeFit, gkdeBandwidth, gkdeFit]
  simp only [if_neg hn, hf]
  refine ⟨?_, ?_, ?_⟩ <;> trivial

/-- Instance of `gkde_fallback_spec`: a failing provider on the
degenerate sample `[2,2,2]` gives the multinomial cost of
`[200,200,200]`, i.e. `log 3`, and no bandwidth. -/
theorem gkde_fallback_spec_witness :
    (gkdeFit (fun _ => none) [2, 2, 2]).mdl = Real.log 3 ∧
    gkdeBandwidth (fun _ => none) [2, 2, 2] = none ∧
    (gkdeFit (fun _ => none) [2, 2, 2]).kde = none := by
  have h := gkde_fallback_spec (fun _ => none) [2, 2, 2] (by decide) rfl
  refine ⟨?_, h.2.1, h.2.2⟩
  rw [h.1]
  have hq : quantize [2, 2, 2] = [200, 200, 200] := by
    norm_num [quantize, truncInt]
  have hu : uniqVals [200, 200, 200] = [200] := by decide
  rw [hq, multinomialMdl, hu]
  norm_num

/-! ### C5: query encoding without the adjacency option -/

/-- The source's `np.max(np.abs(qx) * 2)` equals the design's
`max(|q|) · 2`. -/
theorem maxAbs2_eq (qx : List ℚ) :
    maxAbs2 qx = ((qx.map (fun a => |a|)).foldr max 0) * 2 := by
  induction qx with
  | nil => simp [maxAbs2]
  | cons a t ih =>
      simp only [maxAbs2, List.map_cons, List.foldr_cons] at ih ⊢
      rw [ih, max_mul_of_nonneg _ _ (by norm_num : (0 : ℚ) ≤ 2)]

/-- C5: `encode` without the adjacency option returns `0` on an empty
query, `size · log(max|q|·2)` against an unfitted model, and otherwise
charges each distinct query value `-log p_v` when fitted and the
uniform fallback when absent, weighted by multiplicity. -/
theorem encode_spec (x qx : List ℚ) :
    (qx = [] → encode x qx false = 0) ∧
    (qx ≠ [] → x.length = 0 →
      encode x qx false
        = (qx.length : ℝ)
            * Real.log ((((qx.map (fun a => |a|)).foldr max 0) * 2 : ℚ) : ℝ)) ∧
    (qx ≠ [] → x.length ≠ 0 →
      encode x qx false
        = ∑ v ∈ qx.toFinset,
            (if v ∈ x then -Real.log ((x.count v : ℝ) / (x.length : ℝ))
             else Real.log ((((qx.map (fun a => |a|)).foldr max 0) * 2 : ℚ) : ℝ))
              * (qx.count v : ℝ)) := by
  refine ⟨?_, ?_, ?_⟩
  · intro h
    subst h
    rfl
  · intro hq hx
    have hql : qx.length ≠ 0 := fun h => hq (List.length_eq_zero.mp h)
    rw [encode]
    simp only [if_neg hql, if_pos hx, ← maxAbs2_eq]
  · intro hq hx
    have hql : qx.length ≠ 0 := fun h => hq (List.length_eq_zero.mp h)
    rw [encode]
    simp only [if_neg hql, if_neg hx]
    rw [sum_map_uniqVals]
    refine Finset.sum_congr rfl fun v _ => ?_
    rw [← maxAbs2_eq]
    by_cases hvx : v ∈ x
    · simp only [if_pos hvx, uniqP]
      push_cast
      ring
    · simp only [if_neg hvx, Bool.false_eq_true, if_false]

/-- Instances of `encode_spec` with each branch hypothesis discharged:
empty query, unfitted model, and a fitted/absent mixed query. -/
theorem encode_spec_witness :
    encode [1, 2] [] false = 0 ∧
    encode [] [3] false = (1 : ℝ) * Real.log ((6 : ℚ) : ℝ) ∧
    encode [1, 2] [1] false = Real.log 2 := by
  refine ⟨(encode_spec [1, 2] []).1 rfl, ?_, ?_⟩
  · have h := (encode_spec [] [3]).2.1 (by decide) rfl
    have he : ((([3] : List ℚ).map (fun a => |a|)).foldr max 0) * 2 = 6 := by
      norm_num
    rw [he] at h
    simpa using h
  · have h := (encode_spec [1, 2] [1]).2.2 (by decide) (by decide)
    rw [h]
    have ht : ([1] : List ℚ).toFinset = {1} := by decide
    rw [ht, Finset.sum_singleton, if_pos (by decide : (1 : ℚ) ∈ [1, 2])]
    have hc : ([1, 2] : List ℚ).count 1 = 1 := by decide
    have hq : ([1] : List ℚ).count 1 = 1 := by decide
    rw [hc, hq]
    norm_num
    rw [one_div, Real.log_inv]
    ring

/-! ### C7: sign of the scores -/

theorem x_ne_nil_of_uniqVals_pos {x : List ℚ} (h : 0 < (uniqVals x).length) :
    x ≠ [] := by
  intro he
  rw [he] at h
  revert h
  decide

theorem uniqP_nonneg (x : List ℚ) (v : ℚ) : 0 ≤ uniqP x v := by
  rw [uniqP]
  positivity

theorem uniqP_le_one (x : List ℚ) (v : ℚ) (hx : x ≠ []) : uniqP x v ≤ 1 := by
  rw [uniqP, div_le_one (by exact_mod_cast List.length_pos.mpr hx)]
  exact_mod_cast x.count_le_length v

/-- A fitted probability never costs a negative amount. -/
theorem neg_log_uniqP_nonneg (x : List ℚ) (v : ℚ) (hx : x ≠ []) :
    0 ≤ -Real.log ((uniqP x v : ℚ) : ℝ) := by
  rw [neg_nonneg]
  exact Real.log_nonpos (by exact_mod_cast uniqP_nonneg x v)
    (by exact_mod_cast uniqP_le_one x v hx)

/-- The multinomial self-cost is non-negative. -/
theorem multinomialMdl_nonneg (x : List ℚ) : 0 ≤ multinomialMdl x := by
  rw [multinomialMdl]
  split_ifs with h1 h2
  · refine List.sum_nonneg fun t ht => ?_
    simp only [List.mem_map] at ht
    obtain ⟨v, _, rfl⟩ := ht
    have hx : x ≠ [] := x_ne_nil_of_uniqVals_pos (by omega)
    exact mul_nonneg (neg_log_uniqP_nonneg x v hx) (by positivity)
  · have hx : x ≠ [] := x_ne_nil_of_uniqVals_pos (by omega)
    exact Real.log_nonneg (by exact_mod_cast List.length_pos.mpr hx)
  · exact le_refl 0

/-- The zero-indicator cost is non-negative. -/
theorem ziMdl_nonneg (x : List ℚ) : 0 ≤ ziMdl x := by
  simp only [ziMdl]
  split_ifs with h1 h2
  · exact le_refl 0
  · exact Real.log_nonneg (by norm_num)
  · push_neg at h2
    have hkn : (nonzeroVals x).length ≤ x.length := x.length_filter_le _
    have hn' : (0 : ℝ) < (x.length : ℝ) := by
      exact_mod_cast Nat.pos_of_ne_zero h1
    have hp0 : (0 : ℝ) ≤ ((nonzeroVals x).length : ℝ) / (x.length : ℝ) := by
      positivity
    have hp1 : ((nonzeroVals x).length : ℝ) / (x.length : ℝ) ≤ 1 := by
      rw [div_le_one hn']
      exact_mod_cast hkn
    have h3 : (0 : ℝ) ≤ Real.log 3 := Real.log_nonneg (by norm_num)
    have t1 : ((nonzeroVals x).length : ℝ)
        * Real.log (((nonzeroVals x).length : ℝ) / (x.length : ℝ)) ≤ 0 :=
      mul_nonpos_of_nonneg_of_nonpos (by positivity) (Real.log_nonpos hp0 hp1)
    have t2 : ((x.length : ℝ) - ((nonzeroVals x).length : ℝ))
        * Real.log (1 - ((nonzeroVals x).length : ℝ) / (x.length : ℝ)) ≤ 0 :=
      mul_nonpos_of_nonneg_of_nonpos
        (by rw [sub_nonneg]; exact_mod_cast hkn)
        (Real.log_nonpos (by linarith) (by linarith))
    linarith

/-- Query cost is non-negative whenever every query value is fitted. -/
theorem encode_nonneg_present (x qx : List ℚ) (hx : x ≠ [])
    (hall : ∀ v ∈ qx, v ∈ x) : 0 ≤ encode x qx false := by
  by_cases hq : qx.length = 0
  · rw [encode, if_pos hq]
  · rw [encode]
    simp only [if_neg hq, if_neg (fun h => hx (List.length_eq_zero.mp h))]
    refine List.sum_nonneg fun t ht => ?_
    simp only [List.mem_map] at ht
    obtain ⟨v, hv, rfl⟩ := ht
    have hvx : v ∈ x := hall v (mem_uniqVals.mp hv)
    simp only [if_pos hvx]
    exact mul_nonneg (neg_log_uniqP_nonneg x v hx) (by positivity)

/-- C7 as stated is false: against an unfitted model (or for an absent
query value) the uniform fallback cost `log(max|q|·2)` is negative as
soon as `max|q|·2 < 1`; here `encode([], [1/10])` is `log(1/5) < 0`. -/
theorem encode_negative_cex : encode [] [(1 : ℚ) / 10] false < 0 := by
  rw [encode]
  norm_num
  have hm : maxAbs2 [(1 : ℚ) / 10] = 1 / 5 := by
    have ha : |(1 : ℚ) / 10| = 1 / 10 := abs_of_pos (by norm_num)
    norm_num [maxAbs2, ha]
  rw [hm]
  have hc : (((1 : ℚ) / 5 : ℚ) : ℝ) = 1 / 5 := by norm_num
  rw [hc]
  exact Real.log_neg (by norm_num) (by norm_num)

/-- C7 amended: the self-costs of `MultinomialMdl` and the
zero-indicator are non-negative; `GKdeMdl`'s cost is non-negative on
the empty sample and on the fallback path, and on a successful fit
whenever the total log-density is at most `log 2`; `encode` is
non-negative whenever every query value is present in the fitted
lookup (the uniform fallback for absent values can be negative). -/
theorem mdl_scores_nonneg (fit : KdeFit) (x qx : List ℚ) :
    0 ≤ multinomialMdl x ∧
    0 ≤ ziMdl x ∧
    (x.length = 0 ∨ fit x = none → 0 ≤ (gkdeFit fit x).mdl) ∧
    (∀ logdens factor, fit x = some (logdens, factor) →
      logdens.sum ≤ Real.log 2 → 0 ≤ (gkdeFit fit x).mdl) ∧
    (x ≠ [] → (∀ v ∈ qx, v ∈ x) → 0 ≤ encode x qx false) := by
  refine ⟨multinomialMdl_nonneg x, ziMdl_nonneg x, ?_, ?_,
    fun hx hall => encode_nonneg_present x qx hx hall⟩
  · rintro (h | h)
    · simp [gkdeFit, h]
    · by_cases hn : x.length = 0
      · simp [gkdeFit, hn]
      · rw [gkdeFit]
        simp only [if_neg hn, h]
        exact multinomialMdl_nonneg _
  · intro logdens factor hf hsum
    by_cases hn : x.length = 0
    · simp [gkdeFit, hn]
    · rw [gkdeFit]
      simp only [if_neg hn, hf]
      linarith

/-- Instances of `mdl_scores_nonneg` with its hypotheses discharged:
the fallback path, a successful fit with non-positive log-densities,
and an all-present query. -/
theorem mdl_scores_nonneg_witness :
    0 ≤ multinomialMdl [1, 1, 2, 2, 2] ∧
    0 ≤ (gkdeFit (fun _ => none) [2, 2, 2]).mdl ∧
    0 ≤ (gkdeFit (fun _ => some ([0], 1)) [3]).mdl ∧
    0 ≤ encode [1, 2] [1, 2, 2] false := by
  refine ⟨(mdl_scores_nonneg (fun _ => none) [1, 1, 2, 2, 2] []).1,
    (mdl_scores_nonneg (fun _ => none) [2, 2, 2] []).2.2.1 (Or.inr rfl),
    (mdl_scores_nonneg (fun _ => some ([0], 1)) [3] []).2.2.2.1 [0] 1 rfl ?_,
    (mdl_scores_nonneg (fun _ => none) [1, 2] [1, 2, 2]).2.2.2.2
      (by decide) (by decide)⟩
  simpa using Real.log_nonneg (by norm_num : (1 : ℝ) ≤ 2)

/-! ### C10: the adjacency option never uses the uniform fallback -/

theorem uniqVals_ne_nil {x : List ℚ} (hx : x ≠ []) : uniqVals x ≠ [] := by
  obtain ⟨a, ha⟩ := List.exists_mem_of_ne_nil x hx
  exact List.ne_nil_of_mem (mem_uniqVals.mpr ha)

theorem getD_mem_of_lt {u : List ℚ} {i : ℕ} (h : i < u.length) :
    u.getD i 0 ∈ u := by
  rw [List.getD_eq_getElem _ _ h]
  exact List.getElem_mem h

theorem uniqP_pos_of_mem {x : List ℚ} {u : ℚ} (hu : u ∈ x) : 0 < uniqP x u :=
  div_pos (by exact_mod_cast List.count_pos_iff.mpr hu)
    (by exact_mod_cast List.length_pos.mpr (List.ne_nil_of_mem hu))

/-- The adjacency rule always selects one of the fitted probabilities. -/
theorem adjacentP_mem (x : List ℚ) (hx : x ≠ []) (v : ℚ) :
    ∃ u ∈ x, adjacentP x v = uniqP x u := by
  have hlen : 0 < (uniqVals x).length :=
    List.length_pos.mpr (uniqVals_ne_nil hx)
  simp only [adjacentP]
  split_ifs with h1 h2 h3 h4
  · exact ⟨_, mem_uniqVals.mp (getD_mem_of_lt hlen), rfl⟩
  · exact ⟨_, mem_uniqVals.mp (getD_mem_of_lt (by omega)), rfl⟩
  · exact ⟨_, mem_uniqVals.mp (getD_mem_of_lt (by omega)), rfl⟩
  · exact ⟨_, mem_uniqVals.mp (getD_mem_of_lt (by omega)), rfl⟩
  · rcases max_choice (uniqP x ((uniqVals x).getD
        ((uniqVals x).countP (fun a => decide (a < v)) - 1) 0))
      (uniqP x ((uniqVals x).getD ((uniqVals x).countP (fun a => decide (a < v))) 0))
      with h | h
    · exact ⟨_, mem_uniqVals.mp (getD_mem_of_lt (by omega)), h⟩
    · exact ⟨_, mem_uniqVals.mp (getD_mem_of_lt (by omega)), h⟩

/-- C10: with the adjacency option and a fitted model, every distinct
query value is charged `-log p` for a fitted probability `p` (the
uniform fallback never enters), every chosen probability is positive,
and the total is a non-negative (finite) real. -/
theorem encode_adjacent_no_fallback (x qx : List ℚ) (hx : x ≠ []) (hq : qx ≠ []) :
    encode x qx true =
      ((uniqVals qx).map (fun v =>
        -Real.log (((if v ∈ x then uniqP x v else adjacentP x v) : ℚ) : ℝ)
          * (qx.count v : ℝ))).sum ∧
    (∀ v : ℚ, ∃ u ∈ x,
      (if v ∈ x then uniqP x v else adjacentP x v) = uniqP x u ∧
      0 < (if v ∈ x then uniqP x v else adjacentP x v)) ∧
    0 ≤ encode x qx true := by
  have h1 : encode x qx true =
      ((uniqVals qx).map (fun v =>
        -Real.log (((if v ∈ x then uniqP x v else adjacentP x v) : ℚ) : ℝ)
          * (qx.count v : ℝ))).sum := by
    rw [encode]
    simp only [if_neg (fun h => hq (List.length_eq_zero.mp h)),
      if_neg (fun h => hx (List.length_eq_zero.mp h))]
    refine congrArg List.sum (List.map_congr_left fun v _ => ?_)
    by_cases hvx : v ∈ x <;> simp [hvx]
  have h2 : ∀ v : ℚ, ∃ u ∈ x,
      (if v ∈ x then uniqP x v else adjacentP x v) = uniqP x u ∧
      0 < (if v ∈ x then uniqP x v else adjacentP x v) := by
    intro v
    by_cases hvx : v ∈ x
    · exact ⟨v, hvx, by rw [if_pos hvx], by rw [if_pos hvx]; exact uniqP_pos_of_mem hvx⟩
    · obtain ⟨u, hu, he⟩ := adjacentP_mem x hx v
      exact ⟨u, hu, by rw [if_neg hvx]; exact he,
        by rw [if_neg hvx, he]; exact uniqP_pos_of_mem hu⟩
  refine ⟨h1, h2, ?_⟩
  rw [h1]
  refine List.sum_nonneg fun t ht => ?_
  simp only [List.mem_map] at ht
  obtain ⟨v, _, rfl⟩ := ht
  obtain ⟨u, _, he, _⟩ := h2 v
  rw [he]
  exact mul_nonneg (neg_log_uniqP_nonneg x u hx) (by positivity)

/-- Instance of `encode_adjacent_no_fallback` on an all-zero query (for
which the uniform fallback would be `log 0`): the adjacency-aware cost
against `[1,2]` is the finite value `2·log 2`. -/
theorem encode_adjacent_no_fallback_witness :
    0 ≤ encode [1, 2] [0, 0] true ∧
    encode [1, 2] [0, 0] true = 2 * Real.log 2 := by
  have h := encode_adjacent_no_fallback [1, 2] [0, 0] (by decide) (by decide)
  refine ⟨h.2.2, ?_⟩
  rw [h.1]
  have hu : uniqVals [0, 0] = [0] := by decide
  have h0 : (0 : ℚ) ∉ ([1, 2] : List ℚ) := by decide
  have hu2 : uniqVals [1, 2] = [1, 2] := by decide
  have hc : ([1, 2] : List ℚ).countP (fun a => decide (a < 0)) = 0 := by decide
  have ha : adjacentP [1, 2] 0 = uniqP [1, 2] 1 := by
    simp only [adjacentP, hu2, hc]
    norm_num
  have hp : uniqP [1, 2] 1 = 1 / 2 := by
    rw [uniqP, (by decide : ([1, 2] : List ℚ).count 1 = 1)]
    norm_num
  have hq2 : ([0, 0] : List ℚ).count 0 = 2 := by decide
  rw [hu]
  simp only [List.map_cons, List.map_nil, List.sum_cons, List.sum_nil,
    if_neg h0, ha, hp, hq2]
  push_cast
  rw [one_div, Real.log_inv]
  ring

/-! ### C6: the adjacency rule for absent query values -/

theorem getD_zero_of_min {u : List ℚ} (hs : List.Sorted (· < ·) u) {m : ℚ}
    (hm : m ∈ u) (hmin : ∀ a ∈ u, m ≤ a) : u.getD 0 0 = m := by
  cases u with
  | nil => cases hm
  | cons a t =>
      rcases List.mem_cons.mp hm with rfl | hmt
      · rfl
      · exact absurd (hmin a (List.mem_cons_self a t))
          (not_le.mpr ((List.sorted_cons.mp hs).1 m hmt))

theorem getD_last_of_max {u : List ℚ} (hs : List.Sorted (· < ·) u) {M : ℚ}
    (hM : M ∈ u) (hmax : ∀ a ∈ u, a ≤ M) : u.getD (u.length - 1) 0 = M := by
  induction u with
  | nil => cases hM
  | cons a t ih =>
      cases t with
      | nil =>
          have : M = a := by simpa using hM
          simp [this]
      | cons b t' =>
          have hsc := List.sorted_cons.mp hs
          have hM' : M ∈ b :: t' := by
            rcases List.mem_cons.mp hM with rfl | h
            · exact absurd (hmax b (List.mem_cons_of_mem _ (List.mem_cons_self b t')))
                (not_le.mpr (hsc.1 b (List.mem_cons_self b t')))
            · exact h
          have hrec := ih hsc.2 hM'
            (fun c hc => hmax c (List.mem_cons_of_mem a hc))
          have hlen : (a :: b :: t').length - 1 = ((b :: t').length - 1) + 1 := by
            simp
          rw [hlen, List.getD_cons_succ]
          exact hrec

/-- On a strictly sorted list, `countP (· < v)` (= `np.searchsorted`)
locates `v` strictly between its two adjacent elements `l` and `r`. -/
theorem countP_getD_between {u : List ℚ} (hs : List.Sorted (· < ·) u) {v l r : ℚ}
    (hvu : v ∉ u) (hl : l ∈ u) (hr : r ∈ u) (hlv : l < v) (hvr : v < r)
    (hlmax : ∀ a ∈ u, a < v → a ≤ l) (hrmin : ∀ a ∈ u, v < a → r ≤ a) :
    ∃ i, i ≠ 0 ∧ i < u.length ∧
      u.countP (fun a => decide (a < v)) = i ∧
      u.getD (i - 1) 0 = l ∧ u.getD i 0 = r := by
  induction u with
  | nil => cases hl
  | cons a t ih =>
    have hsc := List.sorted_cons.mp hs
    by_cases hav : a < v
    · by_cases htv : ∃ b ∈ t, b < v
      · obtain ⟨b, hbt, hbv⟩ := htv
        have hlt : l ∈ t := by
          rcases List.mem_cons.mp hl with rfl | h
          · exact absurd (hlmax b (List.mem_cons_of_mem _ hbt) hbv)
              (not_le.mpr (hsc.1 b hbt))
          · exact h
        have hrt : r ∈ t := by
          rcases List.mem_cons.mp hr with rfl | h
          · exact absurd hvr (not_lt.mpr (le_of_lt hav))
          · exact h
        obtain ⟨i, hi0, hilen, hcnt, hgl, hgr⟩ :=
          ih hsc.2 (fun h => hvu (List.mem_cons_of_mem a h)) hlt hrt
            (fun c hc hcv => hlmax c (List.mem_cons_of_mem a hc) hcv)
            (fun c hc hcv => hrmin c (List.mem_cons_of_mem a hc) hcv)
        refine ⟨i + 1, by omega, by simp; omega, ?_, ?_, ?_⟩
        · rw [List.countP_cons_of_pos _ _ (by simpa using hav), hcnt]
        · obtain ⟨j, rfl⟩ : ∃ j, i = j + 1 := ⟨i - 1, by omega⟩
          simp only [Nat.add_sub_cancel] at hgl ⊢
          rw [List.getD_cons_succ]
          exact hgl
        · rw [List.getD_cons_succ]
          exact hgr
      · push_neg at htv
        have hla : l = a := by
          rcases List.mem_cons.mp hl with rfl | h
          · rfl
          · exact absurd hlv (not_lt.mpr (htv l h))
        have hrt : r ∈ t := by
          rcases List.mem_cons.mp hr with rfl | h
          · exact absurd hvr (not_lt.mpr (le_of_lt hav))
          · exact h
        cases t with
        | nil => cases hrt
        | cons b t' =>
          have hvb : v < b := by
            have hb : v ≤ b := htv b (List.mem_cons_self b t')
            have hbv : b ≠ v := fun h =>
              hvu (by rw [← h]; exact List.mem_cons_of_mem a (List.mem_cons_self b t'))
            exact lt_of_le_of_ne hb (Ne.symm hbv)
          have hrb : r = b := by
            have h1 : r ≤ b := hrmin b
              (List.mem_cons_of_mem a (List.mem_cons_self b t')) hvb
            rcases List.mem_cons.mp hrt with rfl | h
            · rfl
            · exact absurd h1
                (not_le.mpr ((List.sorted_cons.mp hsc.2).1 r h))
          refine ⟨1, one_ne_zero, by simp, ?_, ?_, ?_⟩
          · rw [List.countP_cons_of_pos _ _ (by simpa using hav),
              List.countP_eq_zero.mpr ?_]
            intro c hc
            simpa using not_lt.mpr (htv c hc)
          · simpa using hla.symm
          · rw [List.getD_cons_succ]
            simpa using hrb.symm
    · have hlt : l ∈ t := by
        rcases List.mem_cons.mp hl with rfl | h
        · exact absurd hlv hav
        · exact h
      exact absurd (lt_trans (hsc.1 l hlt) hlv) hav

/-- C6 as stated is false on its below-minimum case: for the fitted
sample `[1,1,2]` the fitted probabilities are `p(1) = 2/3` and
`p(2) = 1/3`, so the smallest fitted probability is `1/3`; the query
value `0` lies below the minimum fitted unique value, yet the code
charges `-log(2/3)` — the probability of the smallest fitted VALUE —
which differs from `-log(1/3)`. -/
theorem encode_adjacent_below_min_cex :
    uniqP [1, 1, 2] 1 = 2 / 3 ∧
    uniqP [1, 1, 2] 2 = 1 / 3 ∧
    encode [1, 1, 2] [0] true = -Real.log ((2 : ℝ) / 3) ∧
    encode [1, 1, 2] [0] true ≠ -Real.log ((1 : ℝ) / 3) := by
  have hp1 : uniqP [1, 1, 2] 1 = 2 / 3 := by
    rw [uniqP, (by decide : ([1, 1, 2] : List ℚ).count 1 = 2)]
    norm_num
  have hp2 : uniqP [1, 1, 2] 2 = 1 / 3 := by
    rw [uniqP, (by decide : ([1, 1, 2] : List ℚ).count 2 = 1)]
    norm_num
  have hu2 : uniqVals [1, 1, 2] = [1, 2] := by decide
  have hc : ([1, 2] : List ℚ).countP (fun a => decide (a < 0)) = 0 := by decide
  have ha : adjacentP [1, 1, 2] 0 = uniqP [1, 1, 2] 1 := by
    simp only [adjacentP, hu2, hc]
    norm_num
  have h0 : (0 : ℚ) ∉ ([1, 1, 2] : List ℚ) := by decide
  have he : encode [1, 1, 2] [0] true = -Real.log ((2 : ℝ) / 3) := by
    rw [encode]
    simp only [if_neg (by norm_num : ¬ ([(0 : ℚ)] : List ℚ).length = 0),
      if_neg (by norm_num : ¬ ([1, 1, 2] : List ℚ).length = 0)]
    rw [(by decide : uniqVals [0] = [0])]
    simp only [List.map_cons, List.map_nil, List.sum_cons, List.sum_nil,
      if_neg h0, ha, hp1, if_pos rfl,
      (by decide : ([0] : List ℚ).count 0 = 1)]
    push_cast
    ring
  refine ⟨hp1, hp2, he, ?_⟩
  rw [he]
  have hlt : Real.log ((1 : ℝ) / 3) < Real.log ((2 : ℝ) / 3) :=
    Real.log_lt_log (by norm_num) (by norm_num)
  intro hcon
  have := neg_injective hcon
  linarith [hlt, this.le, this.ge]

/-- C6 amended: for an absent query value `v` with the adjacency option,
the code uses the probability OF the minimum fitted unique value when
`v` is below the minimum, the probability OF the maximum fitted unique
value when `v` is above the maximum, and otherwise the nearer
neighbor's probability with the larger probability on an exact
distance tie; `encode` charges `-log` of that probability. -/
theorem encode_adjacent_spec (x : List ℚ) (v : ℚ) (hv : v ∉ x) :
    (∀ m ∈ x, (∀ a ∈ x, m ≤ a) → v < m → adjacentP x v = uniqP x m) ∧
    (∀ M ∈ x, (∀ a ∈ x, a ≤ M) → M < v → adjacentP x v = uniqP x M) ∧
    (∀ l r, l ∈ x → r ∈ x → l < v → v < r →
      (∀ a ∈ x, a < v → a ≤ l) → (∀ a ∈ x, v < a → r ≤ a) →
      ((|l - v| < |r - v| → adjacentP x v = uniqP x l) ∧
       (|r - v| < |l - v| → adjacentP x v = uniqP x r) ∧
       (|l - v| = |r - v| → adjacentP x v = max (uniqP x l) (uniqP x r)))) ∧
    (x ≠ [] → encode x [v] true = -Real.log ((adjacentP x v : ℚ) : ℝ)) := by
  refine ⟨?_, ?_, ?_, ?_⟩
  · intro m hm hmin hvm
    have hcnt : (uniqVals x).countP (fun a => decide (a < v)) = 0 := by
      refine List.countP_eq_zero.mpr fun a ha => ?_
      simp only [decide_eq_true_eq]
      exact not_lt.mpr (le_of_lt (lt_of_lt_of_le hvm (hmin a (mem_uniqVals.mp ha))))
    simp only [adjacentP, hcnt]
    rw [getD_zero_of_min (sorted_uniqVals x) (mem_uniqVals.mpr hm)
      (fun a ha => hmin a (mem_uniqVals.mp ha))]
    simp
  · intro M hM hmax hMv
    have hlen : 0 < (uniqVals x).length :=
      List.length_pos.mpr (uniqVals_ne_nil (List.ne_nil_of_mem hM))
    have hcnt : (uniqVals x).countP (fun a => decide (a < v))
        = (uniqVals x).length := by
      refine List.countP_eq_length.mpr fun a ha => ?_
      simp only [decide_eq_true_eq]
      exact lt_of_le_of_lt (hmax a (mem_uniqVals.mp ha)) hMv
    simp only [adjacentP, hcnt]
    rw [if_neg (by omega), if_pos (le_refl _)]
    rw [getD_last_of_max (sorted_uniqVals x) (mem_uniqVals.mpr hM)
      (fun a ha => hmax a (mem_uniqVals.mp ha))]
  · intro l r hl hr hlv hvr hlmax hrmin
    obtain ⟨i, hi0, hilen, hcnt, hgl, hgr⟩ :=
      countP_getD_between (sorted_uniqVals x)
        (fun h => hv (mem_uniqVals.mp h)) (mem_uniqVals.mpr hl)
        (mem_uniqVals.mpr hr) hlv hvr
        (fun a ha => hlmax a (mem_uniqVals.mp ha))
        (fun a ha => hrmin a (mem_uniqVals.mp ha))
    simp only [adjacentP, hcnt, hgl, hgr]
    rw [if_neg hi0, if_neg (by omega)]
    refine ⟨fun h => by rw [if_pos h], fun h => ?_, fun h => ?_⟩
    · rw [if_neg (lt_asymm h), if_pos h]
    · rw [if_neg (by rw [h]; exact lt_irrefl _),
        if_neg (by rw [h]; exact lt_irrefl _)]
  · intro hx
    rw [encode]
    simp only [if_neg (by norm_num : ¬ ([v] : List ℚ).length = 0),
      if_neg (fun h => hx (List.length_eq_zero.mp h))]
    have hu : uniqVals [v] = [v] := rfl
    rw [hu]
    simp [hv]

/-- Instance of `encode_adjacent_spec` at the tie-break test case of the
design: fitted `[1,3]`, query value `2` equidistant from both
neighbors. -/
theorem encode_adjacent_spec_witness :
    adjacentP [1, 3] 2 = max (uniqP [1, 3] 1) (uniqP [1, 3] 3) ∧
    encode [1, 3] [2] true = -Real.log ((adjacentP [1, 3] 2 : ℚ) : ℝ) := by
  have h := encode_adjacent_spec [1, 3] 2 (by decide)
  refine ⟨(h.2.2.1 1 3 (by decide) (by decide) (by norm_num) (by norm_num)
      (by decide) (by decide)).2.2 (by norm_num), h.2.2.2 (by decide)⟩

end Scedar
